import Mathlib

/-!
Verification of the cubic extension field arithmetic of
`src/algebra/src/fields/models/cubic_extension.rs`.

The Rust code implements the degree-3 extension `F[X]/(X^3 - NONRESIDUE)` of a
base field `F`, with Karatsuba multiplication and CH-SQR2 squaring (Devegili et
al.), single-base-inversion inversion (Beuchat et al., Algorithm 17), the
Frobenius endomorphism, the norm, and bit/byte codecs.

The embedding below is parametric in the base field (a Lean `Field`, matching
the `Field` bound on `P::BaseField`) and in the non-residue constant.  The
default `mul_base_field_by_nonresidue` implementation `NONRESIDUE * fe` is used,
as in the source trait.
-/

/-- The element type of `CubicExtField<P>`: the coefficient triple
`(c0, c1, c2)` representing `c0 + c1 X + c2 X^2`. -/
structure CubicExtField (F : Type) where
  c0 : F
  c1 : F
  c2 : F
  deriving DecidableEq

namespace CubicExtField

/-- Rust `Field::zero` for the cubic extension: all three coefficients zero. -/
def zero {F : Type} [Field F] : CubicExtField F := ⟨0, 0, 0⟩

/-- Rust `Field::one` for the cubic extension: `c0 = 1`, the rest zero. -/
def one {F : Type} [Field F] : CubicExtField F := ⟨1, 0, 0⟩

/-- Rust `MulAssign::mul_assign` (Karatsuba, Devegili et al. Section 4): `x` plays
the role of `self = (d, e, f)` and `y` of `other = (a, b, c)`; `nr` is
`P::NONRESIDUE`, and `mul_base_field_by_nonresidue` is its default
implementation `nr * _`. -/
def mul {F : Type} [Field F] (nr : F) (x y : CubicExtField F) : CubicExtField F :=
  let a := y.c0
  let b := y.c1
  let c := y.c2
  let d := x.c0
  let e := x.c1
  let f := x.c2
  let ad := d * a
  let be := e * b
  let cf := f * c
  let t := (e + f) * (b + c) - be - cf
  let u := (d + e) * (a + b) - ad - be
  let z := (d + f) * (a + c) - ad + be - cf
  ⟨ad + nr * t, u + nr * cf, z⟩

/-- Rust `Field::square_in_place` (CH-SQR2, Devegili et al. Section 4). -/
def square {F : Type} [Field F] (nr : F) (x : CubicExtField F) : CubicExtField F :=
  let a := x.c0
  let b := x.c1
  let c := x.c2
  let s0 := a * a
  let ab := a * b
  let s1 := ab + ab
  let s2 := (a - b + c) * (a - b + c)
  let bc := b * c
  let s3 := bc + bc
  let s4 := c * c
  ⟨s0 + nr * s3, s1 + nr * s4, s1 + s2 + s3 - s0 - s4⟩

/-- Reference definition following the words of the spec: the polynomial
product `(d + e X + f X^2)(a + b X + c X^2)` expanded to coefficients
`p0 .. p4` and then reduced modulo `X^3 - nr` via `X^3 = nr`, `X^4 = nr X`.
This is the specification side of the refinement claim C1; the code side is
`CubicExtField.mul`. -/
def polyMulReduce {F : Type} [Field F] (nr : F) (x y : CubicExtField F) : CubicExtField F :=
  let p0 := x.c0 * y.c0
  let p1 := x.c0 * y.c1 + x.c1 * y.c0
  let p2 := x.c0 * y.c2 + x.c1 * y.c1 + x.c2 * y.c0
  let p3 := x.c1 * y.c2 + x.c2 * y.c1
  let p4 := x.c2 * y.c2
  ⟨p0 + nr * p3, p1 + nr * p4, p2⟩

instance fact_prime_13 : Fact (Nat.Prime 13) := ⟨by norm_num⟩

instance fact_prime_7 : Fact (Nat.Prime 7) := ⟨by norm_num⟩

theorem mk_eq_iff {F : Type} (a b c d e f : F) :
    (⟨a, b, c⟩ : CubicExtField F) = ⟨d, e, f⟩ ↔ a = d ∧ b = e ∧ c = f := by
  constructor
  · intro h
    injection h with h0 h1 h2
    exact ⟨h0, h1, h2⟩
  · rintro ⟨rfl, rfl, rfl⟩
    rfl

theorem eq_zero_iff {F : Type} [Field F] (x : CubicExtField F) :
    x = zero ↔ x.c0 = 0 ∧ x.c1 = 0 ∧ x.c2 = 0 := by
  obtain ⟨a, b, c⟩ := x
  exact mk_eq_iff a b c 0 0 0

theorem mul_eq_polyMulReduce {F : Type} [Field F] (nr : F) (x y : CubicExtField F) :
    mul nr x y = polyMulReduce nr x y := by
  obtain ⟨d, e, f⟩ := x
  obtain ⟨a, b, c⟩ := y
  simp only [mul, polyMulReduce, mk_eq_iff]
  refine ⟨by ring, by ring, by ring⟩

/-- C1: the Karatsuba `mul_assign` schedule computes the cubic-extension
product, i.e. the polynomial product reduced modulo `X^3 - NONRESIDUE`, for
every base field, non-residue and pair of elements; and in the toy field
`Z/13` with non-residue `5`, `(1,2,3) * (4,0,1)` equals the reduced
polynomial product. -/
theorem c1_karatsuba_mul_correct :
    (∀ (F : Type) (instF : Field F) (nr : F) (x y : CubicExtField F),
        mul nr x y = polyMulReduce nr x y)
    ∧ mul (5 : ZMod 13) ⟨1, 2, 3⟩ ⟨4, 0, 1⟩
        = polyMulReduce (5 : ZMod 13) ⟨1, 2, 3⟩ ⟨4, 0, 1⟩ := by
  refine ⟨?_, ?_⟩
  · intro F instF nr x y
    exact mul_eq_polyMulReduce nr x y
  · decide

/-- C3: the specialized CH-SQR2 squaring path agrees with the general
Karatsuba multiplication path on every input: `square nr x = mul nr x x`. -/
theorem c3_square_eq_mul_self :
    ∀ (F : Type) (instF : Field F) (nr : F) (x : CubicExtField F),
      square nr x = mul nr x x := by
  intro F instF nr x
  obtain ⟨a, b, c⟩ := x
  simp only [square, mul, mk_eq_iff]
  refine ⟨by ring, by ring, by ring⟩

/-- The intermediate value `s0 = t0 - n5 = c0^2 - NONRESIDUE * (c1 * c2)` of
`Field::inverse` (Beuchat et al., Algorithm 17). -/
def invS0 {F : Type} [Field F] (nr : F) (x : CubicExtField F) : F :=
  x.c0 * x.c0 - nr * (x.c1 * x.c2)

/-- The intermediate value `s1 = NONRESIDUE * t2 - t3 = nr * c2^2 - c0 * c1`
of `Field::inverse`. -/
def invS1 {F : Type} [Field F] (nr : F) (x : CubicExtField F) : F :=
  nr * (x.c2 * x.c2) - x.c0 * x.c1

/-- The intermediate value `s2 = t1 - t4 = c1^2 - c0 * c2` of
`Field::inverse` (the corrected subtraction form, see the source comment about
the sign typo in the referenced paper). -/
def invS2 {F : Type} [Field F] (nr : F) (x : CubicExtField F) : F :=
  x.c1 * x.c1 - x.c0 * x.c2

/-- The value held by `t6` in `Field::inverse` just before
`t6.inverse_in_place()` is called:
`c0 * s0 + NONRESIDUE * (c2 * s1 + c1 * s2)`
(in the source: `a1 = c2 * s1`, `a2 = c1 * s2`, `a3 = nr * (a1 + a2)`,
`t6 = c0 * s0 + a3`). -/
def invT6pre {F : Type} [Field F] (nr : F) (x : CubicExtField F) : F :=
  x.c0 * invS0 nr x + nr * (x.c2 * invS1 nr x + x.c1 * invS2 nr x)

/-- Rust `Field::inverse`.  The source checks `self.is_zero()` (all three
coefficients zero) and otherwise builds `(t6 * s0, t6 * s1, t6 * s2)` after
`t6.inverse_in_place()`, whose returned `Option` is discarded: when the base
inversion fails (`t6 = 0`) the Rust value is left unchanged, i.e. stays `0`,
which coincides with Mathlib where `(0 : F)⁻¹ = 0`; so `(invT6pre nr x)⁻¹`
models the post-call value of `t6` exactly. -/
def inverse {F : Type} [Field F] [DecidableEq F] (nr : F) (x : CubicExtField F) :
    Option (CubicExtField F) :=
  if x.c0 = 0 ∧ x.c1 = 0 ∧ x.c2 = 0 then none
  else
    let t6 := (invT6pre nr x)⁻¹
    some ⟨t6 * invS0 nr x, t6 * invS1 nr x, t6 * invS2 nr x⟩

/-- Rust `Div::div` and `DivAssign::div_assign` share the body
`self.mul_assign(&other.inverse().unwrap())`: the `unwrap` of `None` is a Rust
panic, modelled as `none`. -/
def div {F : Type} [Field F] [DecidableEq F] (nr : F) (x y : CubicExtField F) :
    Option (CubicExtField F) :=
  match inverse nr y with
  | none => none
  | some i => some (mul nr x i)

theorem inverse_eq_none_iff {F : Type} [Field F] [DecidableEq F] (nr : F)
    (x : CubicExtField F) : inverse nr x = none ↔ x = zero := by
  by_cases h : x.c0 = 0 ∧ x.c1 = 0 ∧ x.c2 = 0
  · simp [inverse, h, eq_zero_iff]
  · simp [inverse, h, eq_zero_iff]

theorem mul_sVec {F : Type} [Field F] (nr : F) (x : CubicExtField F) :
    mul nr x ⟨invS0 nr x, invS1 nr x, invS2 nr x⟩ = ⟨invT6pre nr x, 0, 0⟩ := by
  obtain ⟨a, b, c⟩ := x
  simp only [mul, invS0, invS1, invS2, invT6pre, mk_eq_iff]
  refine ⟨by ring, by ring, by ring⟩

theorem mul_scaled {F : Type} [Field F] (nr t a b c : F) (x : CubicExtField F) :
    mul nr x ⟨t * a, t * b, t * c⟩
      = ⟨t * (mul nr x ⟨a, b, c⟩).c0, t * (mul nr x ⟨a, b, c⟩).c1,
          t * (mul nr x ⟨a, b, c⟩).c2⟩ := by
  obtain ⟨d, e, f⟩ := x
  simp only [mul, mk_eq_iff]
  refine ⟨by ring, by ring, by ring⟩

/-- The adjugate-squared identity: applying the `s`-vector construction of
Algorithm 17 twice scales the original coefficients by `invT6pre`. -/
theorem sVec_sVec {F : Type} [Field F] (nr : F) (x : CubicExtField F) :
    invS0 nr ⟨invS0 nr x, invS1 nr x, invS2 nr x⟩ = invT6pre nr x * x.c0
    ∧ invS1 nr ⟨invS0 nr x, invS1 nr x, invS2 nr x⟩ = invT6pre nr x * x.c1
    ∧ invS2 nr ⟨invS0 nr x, invS1 nr x, invS2 nr x⟩ = invT6pre nr x * x.c2 := by
  obtain ⟨a, b, c⟩ := x
  simp only [invS0, invS1, invS2, invT6pre]
  refine ⟨by ring, by ring, by ring⟩

/-- If all three `s`-values of a non-zero element vanish, the non-residue has
a cube root in the base field. -/
theorem cube_root_of_sVec_zero {F : Type} [Field F] (nr : F) (x : CubicExtField F)
    (h0 : invS0 nr x = 0) (h1 : invS1 nr x = 0) (h2 : invS2 nr x = 0)
    (hx : ¬(x.c0 = 0 ∧ x.c1 = 0 ∧ x.c2 = 0)) : ∃ y : F, y * y * y = nr := by
  obtain ⟨a, b, c⟩ := x
  simp only [invS0, invS1, invS2] at h0 h1 h2
  simp only at hx
  by_cases ha : a = 0
  · subst ha
    have hb : b = 0 := by
      have hbb : b * b = 0 := by linear_combination h2
      exact mul_self_eq_zero.mp hbb
    subst hb
    by_cases hnr : nr = 0
    · exact ⟨0, by simp [hnr]⟩
    · exfalso
      have hc2 : nr * (c * c) = 0 := by linear_combination h1
      have hcc : c * c = 0 := by
        rcases mul_eq_zero.mp hc2 with h | h
        · exact absurd h hnr
        · exact h
      exact hx ⟨rfl, rfl, mul_self_eq_zero.mp hcc⟩
  · have hb : b ≠ 0 := by
      intro hb
      subst hb
      have haa : a * a = 0 := by linear_combination h0
      exact ha (mul_self_eq_zero.mp haa)
    refine ⟨a * b⁻¹, ?_⟩
    have key : a * a * a = nr * (b * b * b) := by
      linear_combination a * h0 - (nr * b) * h2
    field_simp
    linear_combination key

/-- If the input of `Field::inverse` is non-zero and `X^3 - NONRESIDUE` has no
root in the base field (equivalently, for a degree-3 polynomial over a field,
is irreducible), then the value `t6` fed to the single base-field inversion is
non-zero. -/
theorem invT6pre_ne_zero {F : Type} [Field F] (nr : F) (x : CubicExtField F)
    (hx : ¬(x.c0 = 0 ∧ x.c1 = 0 ∧ x.c2 = 0)) (hcube : ∀ y : F, y * y * y ≠ nr) :
    invT6pre nr x ≠ 0 := by
  intro hN
  by_cases hs : invS0 nr x = 0 ∧ invS1 nr x = 0 ∧ invS2 nr x = 0
  · obtain ⟨y, hy⟩ := cube_root_of_sVec_zero nr x hs.1 hs.2.1 hs.2.2 hx
    exact hcube y hy
  · obtain ⟨g0, g1, g2⟩ := sVec_sVec nr x
    have h0 : invS0 nr ⟨invS0 nr x, invS1 nr x, invS2 nr x⟩ = 0 := by
      rw [g0, hN, zero_mul]
    have h1 : invS1 nr ⟨invS0 nr x, invS1 nr x, invS2 nr x⟩ = 0 := by
      rw [g1, hN, zero_mul]
    have h2 : invS2 nr ⟨invS0 nr x, invS1 nr x, invS2 nr x⟩ = 0 := by
      rw [g2, hN, zero_mul]
    obtain ⟨y, hy⟩ := cube_root_of_sVec_zero nr ⟨invS0 nr x, invS1 nr x, invS2 nr x⟩ h0 h1 h2 hs
    exact hcube y hy

/-- Core inversion correctness: for non-zero input and an irreducible modulus
polynomial, `Field::inverse` returns `some` of a genuine multiplicative
inverse. -/
theorem inverse_mul_eq_one {F : Type} [Field F] [DecidableEq F] (nr : F)
    (x : CubicExtField F) (hx : x ≠ zero) (hcube : ∀ y : F, y * y * y ≠ nr) :
    ∃ b : CubicExtField F, inverse nr x = some b ∧ mul nr x b = one := by
  have hxc : ¬(x.c0 = 0 ∧ x.c1 = 0 ∧ x.c2 = 0) := by
    intro h
    exact hx ((eq_zero_iff x).mpr h)
  have hN : invT6pre nr x ≠ 0 := invT6pre_ne_zero nr x hxc hcube
  refine ⟨⟨(invT6pre nr x)⁻¹ * invS0 nr x, (invT6pre nr x)⁻¹ * invS1 nr x,
      (invT6pre nr x)⁻¹ * invS2 nr x⟩, ?_, ?_⟩
  · simp [inverse, hxc]
  · rw [mul_scaled, mul_sVec]
    simp only [mul_zero, one]
    rw [inv_mul_cancel₀ hN]

/-- C2: for every non-zero element of a cubic extension with irreducible
modulus polynomial (no base-field cube root of the non-residue),
`Field::inverse` returns `some b` with `x * b = one`; and in `Z/13` the
extension inverse of the pure base-field embedding `(3,0,0)` is the base-field
inverse of `3` embedded back. -/
theorem c2_inverse_correct :
    (∀ (F : Type) (instF : Field F) (instD : DecidableEq F) (nr : F)
        (x : CubicExtField F), x ≠ zero → (∀ y : F, y * y * y ≠ nr) →
        ∃ b : CubicExtField F, inverse nr x = some b ∧ mul nr x b = one)
    ∧ inverse (5 : ZMod 13) ⟨3, 0, 0⟩ = some ⟨(3 : ZMod 13)⁻¹, 0, 0⟩ := by
  refine ⟨?_, ?_⟩
  · intro F instF instD nr x hx hcube
    exact inverse_mul_eq_one nr x hx hcube
  · have hcond : ¬((3 : ZMod 13) = 0 ∧ (0 : ZMod 13) = 0 ∧ (0 : ZMod 13) = 0) := by
      decide
    have ht6 : invT6pre (5 : ZMod 13) ⟨3, 0, 0⟩ = 1 := by decide
    have h3 : (3 : ZMod 13)⁻¹ = 9 := inv_eq_of_mul_eq_one_right (by decide)
    rw [show (inverse (5 : ZMod 13) ⟨3, 0, 0⟩ : Option (CubicExtField (ZMod 13)))
        = some ⟨(invT6pre (5 : ZMod 13) ⟨3, 0, 0⟩)⁻¹ * invS0 5 ⟨3, 0, 0⟩,
            (invT6pre (5 : ZMod 13) ⟨3, 0, 0⟩)⁻¹ * invS1 5 ⟨3, 0, 0⟩,
            (invT6pre (5 : ZMod 13) ⟨3, 0, 0⟩)⁻¹ * invS2 5 ⟨3, 0, 0⟩⟩
      from by simp [inverse, show ¬(3 : ZMod 13) = 0 from by decide],
      ht6, inv_one, h3]
    decide

/-- Witness for C2 at a concrete well-formed parameterization: the base field
`Z/7` with non-residue `2` (which has no cube root mod 7), input `(1,0,0)`. -/
theorem c2_inverse_correct_witness :
    ∃ b : CubicExtField (ZMod 7), inverse (2 : ZMod 7) ⟨1, 0, 0⟩ = some b
      ∧ mul (2 : ZMod 7) ⟨1, 0, 0⟩ b = one :=
  c2_inverse_correct.1 (ZMod 7) inferInstance inferInstance 2 ⟨1, 0, 0⟩
    (by decide) (by decide)

/-- C4: `Field::inverse` returns `None` exactly on the zero element, and
`Some` on every other input, over every base field and non-residue. -/
theorem c4_inverse_none_iff_zero :
    ∀ (F : Type) (instF : Field F) (instD : DecidableEq F) (nr : F)
      (x : CubicExtField F), inverse nr x = none ↔ x = zero := by
  intro F instF instD nr x
  exact inverse_eq_none_iff nr x

/-- C9: under the precondition that the input is non-zero and
`X^3 - NONRESIDUE` is irreducible (no cube root of the non-residue), the value
`t6` on which `Field::inverse` performs its single discarded-result base-field
inversion is non-zero, so the `None` branch of `t6.inverse_in_place()` is
unreachable. -/
theorem c9_inner_inversion_never_fails :
    ∀ (F : Type) (instF : Field F) (nr : F) (x : CubicExtField F),
      x ≠ zero → (∀ y : F, y * y * y ≠ nr) → invT6pre nr x ≠ 0 := by
  intro F instF nr x hx hcube
  refine invT6pre_ne_zero nr x ?_ hcube
  intro h
  exact hx ((eq_zero_iff x).mpr h)

/-- Witness for C9: `Z/7`, non-residue `2`, input `(1,0,0)`. -/
theorem c9_inner_inversion_never_fails_witness :
    invT6pre (2 : ZMod 7) ⟨1, 0, 0⟩ ≠ 0 :=
  c9_inner_inversion_never_fails (ZMod 7) inferInstance 2 ⟨1, 0, 0⟩
    (by decide) (by decide)

/-- C10: division (both `Div::div` and `DivAssign::div_assign`, which share
the expression `self * other.inverse().unwrap()`) panics exactly on a zero
divisor (modelled as `none`); for every non-zero divisor under an irreducible
parameterization it returns `some (x * i)` where `i` is the computed inverse
of the divisor, a genuine multiplicative inverse. -/
theorem c10_div_by_zero_panics :
    (∀ (F : Type) (instF : Field F) (instD : DecidableEq F) (nr : F)
        (x y : CubicExtField F), div nr x y = none ↔ y = zero)
    ∧ (∀ (F : Type) (instF : Field F) (instD : DecidableEq F) (nr : F)
        (x y : CubicExtField F), y ≠ zero → (∀ t : F, t * t * t ≠ nr) →
        ∃ i : CubicExtField F, inverse nr y = some i ∧ div nr x y = some (mul nr x i)
          ∧ mul nr y i = one) := by
  refine ⟨?_, ?_⟩
  · intro F instF instD nr x y
    constructor
    · intro h
      rcases hinv : inverse nr y with _ | i
      · exact (inverse_eq_none_iff nr y).mp hinv
      · rw [div, hinv] at h
        exact absurd h (by simp)
    · intro h
      have hnone : inverse nr y = none := (inverse_eq_none_iff nr y).mpr h
      rw [div, hnone]
  · intro F instF instD nr x y hy hcube
    obtain ⟨i, hi, hmul⟩ := inverse_mul_eq_one nr y hy hcube
    exact ⟨i, hi, by rw [div, hi], hmul⟩

/-- Witness for C10: `Z/7`, non-residue `2`, divisor `(1,1,0)`. -/
theorem c10_div_by_zero_panics_witness :
    ∃ i : CubicExtField (ZMod 7), inverse (2 : ZMod 7) ⟨1, 1, 0⟩ = some i
      ∧ div (2 : ZMod 7) ⟨0, 0, 1⟩ ⟨1, 1, 0⟩ = some (mul (2 : ZMod 7) ⟨0, 0, 1⟩ i)
      ∧ mul (2 : ZMod 7) ⟨1, 1, 0⟩ i = one :=
  c10_div_by_zero_panics.2 (ZMod 7) inferInstance inferInstance 2 ⟨0, 0, 1⟩ ⟨1, 1, 0⟩
    (by decide) (by decide)

/-- The two behavior hooks of `CubicExtParameters` that `frobenius_map`
consumes: the base field Frobenius (`BaseField::frobenius_map`, by power) and
`mul_base_field_by_frob_coeff`, which rewrites `c1` and `c2` for a power. -/
structure FrobParams (F : Type) where
  baseFrob : Nat → F → F
  mulByFrobCoeff : F → F → Nat → F × F

/-- Rust `Field::frobenius_map`: apply the base-field Frobenius to each coefficient,
then correct `c1` and `c2` through `mul_base_field_by_frob_coeff`. -/
def frobeniusMap {F : Type} (P : FrobParams F) (power : Nat) (x : CubicExtField F) :
    CubicExtField F :=
  let c0 := P.baseFrob power x.c0
  let c1 := P.baseFrob power x.c1
  let c2 := P.baseFrob power x.c2
  let cc := P.mulByFrobCoeff c1 c2 power
  ⟨c0, cc.1, cc.2⟩

/-- The product computed inside `CubicExtField::norm`:
`self_to_p *= self_to_p2 * self`, i.e.
`frobenius_map(self,1) * (frobenius_map(self,2) * self)`. -/
def normProd {F : Type} [Field F] (nr : F) (P : FrobParams F) (x : CubicExtField F) :
    CubicExtField F :=
  mul nr (frobeniusMap P 1 x) (mul nr (frobeniusMap P 2 x) x)

/-- Rust `CubicExtField::norm`: the source asserts that the product collapses into
the base field (`assert!(self_to_p.c1.is_zero() && self_to_p.c2.is_zero())`)
and then returns its `c0`; a failed assertion is a Rust panic, modelled as
`Except.error`. -/
def norm {F : Type} [Field F] [DecidableEq F] (nr : F) (P : FrobParams F)
    (x : CubicExtField F) : Except Unit F :=
  if (normProd nr P x).c1 = 0 ∧ (normProd nr P x).c2 = 0 then
    Except.ok (normProd nr P x).c0
  else Except.error ()

/-- Modelled from the spec: `mul_base_field_by_frob_coeff` has no default and
its curve-specific implementations are not under `src/`; per the spec it
corrects `c1` and `c2` "by the precomputed table entries for that power", so
this model multiplies them by the `FROBENIUS_COEFF_C1` / `FROBENIUS_COEFF_C2`
table entries, the tables being indexed by the power modulo the extension
degree 3. -/
def tableFrobParams {F : Type} [Field F] (baseFrob : Nat → F → F) (t1 t2 : Nat → F) :
    FrobParams F :=
  ⟨baseFrob, fun c1 c2 power => (c1 * t1 (power % 3), c2 * t2 (power % 3))⟩

/-- Modelled from the spec: the base prime field (here `Z/7`) is outside
`src/`; its Frobenius map `x ↦ x^(p^power)` is the identity on the prime
field. -/
def zmod7Frob : Nat → ZMod 7 → ZMod 7 := fun _ x => x

/-- The concrete well-formed parameterization used as a test vector:
`F = Z/7`, non-residue `2` (not a cube mod 7, so `X^3 - 2` is irreducible),
with the Frobenius coefficient tables `C1 = [1, 4, 2]`, `C2 = [1, 2, 4]`
(powers of `2^((7^i - 1)/3)`). -/
def frob7 : FrobParams (ZMod 7) :=
  tableFrobParams zmod7Frob
    (fun i => match i with
      | 0 => 1
      | 1 => 4
      | _ => 2)
    (fun i => match i with
      | 0 => 1
      | 1 => 2
      | _ => 4)

instance instDecidableEqExcept {e a : Type} [DecidableEq e] [DecidableEq a] :
    DecidableEq (Except e a) := fun x y =>
  match x, y with
  | Except.error u, Except.error v =>
    if h : u = v then isTrue (h ▸ rfl) else isFalse (fun hc => h (Except.error.inj hc))
  | Except.error _, Except.ok _ => isFalse (fun hc => Except.noConfusion hc)
  | Except.ok _, Except.error _ => isFalse (fun hc => Except.noConfusion hc)
  | Except.ok u, Except.ok v =>
    if h : u = v then isTrue (h ▸ rfl) else isFalse (fun hc => h (Except.ok.inj hc))

instance instFintypeCubicExtField {F : Type} [Fintype F] [DecidableEq F] :
    Fintype (CubicExtField F) :=
  Fintype.ofEquiv (F × F × F)
    ⟨fun p => ⟨p.1, p.2.1, p.2.2⟩, fun x => (x.c0, x.c1, x.c2),
      fun p => rfl, fun x => rfl⟩

set_option maxRecDepth 100000 in
/-- C5: `norm` returns the `c0` coefficient of
`frobenius_map(self,1) * (frobenius_map(self,2) * self)` whenever that
product has zero `c1` and `c2` coefficients, and raises the assertion
(modelled as `Except.error`) instead of returning a value when the collapse
fails; on the concrete well-formed parameterization `Z/7` with non-residue
`2` the collapse holds for every element, so `norm` lands in the base field
on every input. -/
theorem c5_norm_collapses :
    (∀ (F : Type) (instF : Field F) (instD : DecidableEq F) (nr : F)
        (P : FrobParams F) (x : CubicExtField F),
        ((normProd nr P x).c1 = 0 ∧ (normProd nr P x).c2 = 0 →
          norm nr P x = Except.ok (normProd nr P x).c0)
        ∧ (¬((normProd nr P x).c1 = 0 ∧ (normProd nr P x).c2 = 0) →
          norm nr P x = Except.error ()))
    ∧ ∀ x : CubicExtField (ZMod 7),
        (normProd (2 : ZMod 7) frob7 x).c1 = 0
        ∧ (normProd (2 : ZMod 7) frob7 x).c2 = 0
        ∧ norm (2 : ZMod 7) frob7 x = Except.ok (normProd (2 : ZMod 7) frob7 x).c0 := by
  refine ⟨?_, ?_⟩
  · intro F instF instD nr P x
    constructor
    · intro h
      simp [norm, h]
    · intro h
      simp [norm, h]
  · decide

/-- Witness for C5: the generic branch applied at the concrete
parameterization and input `(1, 2, 3)` over `Z/7`. -/
theorem c5_norm_collapses_witness :
    norm (2 : ZMod 7) frob7 ⟨1, 2, 3⟩
      = Except.ok (normProd (2 : ZMod 7) frob7 ⟨1, 2, 3⟩).c0 :=
  (c5_norm_collapses.1 (ZMod 7) inferInstance inferInstance 2 frob7 ⟨1, 2, 3⟩).1
    (by decide)

/-- C8: applying `frobenius_map(1)` three times (the degree of this extension
over the base prime field when the base field is the base prime field itself)
is the identity, given a well-formed parameterization: the base Frobenius at
power 1 is multiplicative and of order dividing 3, the coefficient hook
multiplies `c1` and `c2` by fixed table entries `k1`, `k2`, and each table
entry has norm 1 (`k * φ(k) * φ(φ(k)) = 1`). -/
theorem c8_frobenius_periodicity :
    ∀ (F : Type) (instF : Field F) (P : FrobParams F) (k1 k2 : F),
      (∀ a b : F, P.baseFrob 1 (a * b) = P.baseFrob 1 a * P.baseFrob 1 b) →
      (∀ a : F, P.baseFrob 1 (P.baseFrob 1 (P.baseFrob 1 a)) = a) →
      (∀ c1 c2 : F, P.mulByFrobCoeff c1 c2 1 = (c1 * k1, c2 * k2)) →
      k1 * P.baseFrob 1 k1 * P.baseFrob 1 (P.baseFrob 1 k1) = 1 →
      k2 * P.baseFrob 1 k2 * P.baseFrob 1 (P.baseFrob 1 k2) = 1 →
      ∀ x : CubicExtField F,
        frobeniusMap P 1 (frobeniusMap P 1 (frobeniusMap P 1 x)) = x := by
  intro F instF P k1 k2 hmul h3 hhook hk1 hk2 x
  obtain ⟨a, b, c⟩ := x
  simp only [frobeniusMap, hhook]
  rw [mk_eq_iff]
  refine ⟨h3 a, ?_, ?_⟩
  · simp only [hmul, h3]
    linear_combination b * hk1
  · simp only [hmul, h3]
    linear_combination c * hk2

/-- Witness for C8: the concrete parameterization `frob7` over `Z/7` with
table entries `k1 = 4`, `k2 = 2`, applied to `(1, 2, 3)`. -/
theorem c8_frobenius_periodicity_witness :
    frobeniusMap frob7 1 (frobeniusMap frob7 1 (frobeniusMap frob7 1
      (⟨1, 2, 3⟩ : CubicExtField (ZMod 7)))) = ⟨1, 2, 3⟩ :=
  c8_frobenius_periodicity (ZMod 7) inferInstance frob7 4 2
    (by decide) (by decide) (by decide) (by decide) (by decide) ⟨1, 2, 3⟩

/-- Outcome of `FromBits::read_bits`, distinguishing the `Err` return channel
from a Rust panic (an out-of-bounds positional slice such as `bits[..size]`
aborts instead of returning). -/
inductive BitReadResult (F : Type) where
  | ok : CubicExtField F → BitReadResult F
  | error : BitReadResult F
  | panic : BitReadResult F
  deriving DecidableEq

/-- Rust `ToBits::write_bits`: the concatenation of the base-field bit encodings of
`c0`, `c1`, `c2` in that order. -/
def write_bits {F : Type} (w : F → List Bool) (x : CubicExtField F) : List Bool :=
  w x.c0 ++ w x.c1 ++ w x.c2

/-- Rust `FromBits::read_bits` with
`size = (DEGREE_OVER_BASE_PRIME_FIELD / 3) * MODULUS_BITS`:
`c0` is decoded from `bits[..size]`, `c1` from `bits[size..2*size]`, `c2` from
`bits[(2*size)..]`, with the `?` operator propagating each base-field decode
failure.  In Rust each slice is taken before the corresponding decode, and an
out-of-range slice panics: `bits[..size]` requires `size ≤ bits.len()` and
`bits[size..2*size]` requires `2*size ≤ bits.len()`; those aborts are modelled
as `BitReadResult.panic`.  The base-field decoder `r` returns `none` on a
decode failure. -/
def read_bits {F : Type} (size : Nat) (r : List Bool → Option F) (bits : List Bool) :
    BitReadResult F :=
  if bits.length < size then BitReadResult.panic
  else
    match r (bits.take size) with
    | none => BitReadResult.error
    | some c0 =>
      if bits.length < 2 * size then BitReadResult.panic
      else
        match r ((bits.drop size).take size) with
        | none => BitReadResult.error
        | some c1 =>
          match r (bits.drop (2 * size)) with
          | none => BitReadResult.error
          | some c2 => BitReadResult.ok ⟨c0, c1, c2⟩

/-- Rust `ToBytes::write`: the base-field byte encodings of `c0`, `c1`, `c2`
written in that order. -/
def writeBytes {F B : Type} (w : F → List B) (x : CubicExtField F) : List B :=
  w x.c0 ++ w x.c1 ++ w x.c2

/-- Rust `FromBytes::read`: three successive base-field reads from the stream, the
`?` operator propagating failures; the base reader consumes a prefix and
returns the rest of the stream. -/
def readBytes {F B : Type} (r : List B → Option (F × List B)) (s : List B) :
    Option (CubicExtField F × List B) :=
  match r s with
  | none => none
  | some (c0, s1) =>
    match r s1 with
    | none => none
    | some (c1, s2) =>
      match r s2 with
      | none => none
      | some (c2, s3) => some (⟨c0, c1, c2⟩, s3)

/-- C7: the byte and bit codecs round-trip exactly: whenever the base-field
byte reader inverts the base-field byte writer (consuming exactly what was
written) and the base-field bit codec is fixed-width and round-trips,
`read(write(a))` recovers `a`, consuming the whole encoding. -/
theorem c7_roundtrip :
    (∀ (F B : Type) (wB : F → List B) (rB : List B → Option (F × List B)),
        (∀ (x : F) (s : List B), rB (wB x ++ s) = some (x, s)) →
        ∀ a : CubicExtField F, readBytes rB (writeBytes wB a) = some (a, []))
    ∧ (∀ (F : Type) (size : Nat) (w : F → List Bool) (r : List Bool → Option F),
        (∀ x : F, (w x).length = size) →
        (∀ x : F, r (w x) = some x) →
        ∀ a : CubicExtField F, read_bits size r (write_bits w a) = BitReadResult.ok a) := by
  refine ⟨?_, ?_⟩
  · intro F B wB rB hB a
    obtain ⟨c0, c1, c2⟩ := a
    have h2 : rB (wB c2) = some (c2, []) := by
      have h := hB c2 []
      rwa [List.append_nil] at h
    simp only [writeBytes, readBytes, List.append_assoc, hB, h2]
  · intro F size w r hlen hrt a
    obtain ⟨c0, c1, c2⟩ := a
    simp only [write_bits]
    have hl : (w c0 ++ w c1 ++ w c2).length = size + size + size := by
      rw [List.length_append, List.length_append, hlen, hlen, hlen]
    have e0 : (w c0 ++ w c1 ++ w c2).take size = w c0 := by
      rw [List.append_assoc]
      exact List.take_left' (hlen c0)
    have e1 : ((w c0 ++ w c1 ++ w c2).drop size).take size = w c1 := by
      rw [List.append_assoc, List.drop_left' (hlen c0)]
      exact List.take_left' (hlen c1)
    have e2 : (w c0 ++ w c1 ++ w c2).drop (2 * size) = w c2 := by
      refine List.drop_left' ?_
      rw [List.length_append, hlen, hlen]
      omega
    have h1 : (size + size + size < size) = False := eq_false (by omega)
    have h2 : (size + size + size < 2 * size) = False := eq_false (by omega)
    simp only [read_bits, hl, h1, h2, if_false, e0, e1, e2, hrt]

/-- Modelled from the spec: the base prime field bit codec is not under
`src/`; per the spec each component is a fixed-width big-endian encoding of
`MODULUS_BITS` bits (3 bits for `Z/7`), and a malformed length or a
non-canonical value is a decode failure.  `bitsToNat` folds bits
most-significant first. -/
def bitsToNat (l : List Bool) : Nat :=
  l.foldl (fun n b => 2 * n + (if b then 1 else 0)) 0

/-- Big-endian fixed-width encoding of a natural number on `width` bits. -/
def natToBits (width n : Nat) : List Bool :=
  (List.range width).map (fun i => Nat.testBit n (width - 1 - i))

/-- Modelled from the spec: the `Z/7` base-field bit writer (3 fixed bits). -/
def zmod7WriteBits (x : ZMod 7) : List Bool :=
  natToBits 3 x.val

/-- Modelled from the spec: the `Z/7` base-field bit reader; rejects any
length other than `MODULUS_BITS = 3` and any value `≥ 7`. -/
def zmod7ReadBits (l : List Bool) : Option (ZMod 7) :=
  if l.length = 3 ∧ bitsToNat l < 7 then some ((bitsToNat l : Nat) : ZMod 7) else none

/-- Base-field byte writer used to instantiate the byte round-trip witness:
one symbol per element. -/
def zmod7WriteByte (x : ZMod 7) : List (ZMod 7) := [x]

/-- Base-field byte reader matching `zmod7WriteByte`. -/
def zmod7ReadByte : List (ZMod 7) → Option (ZMod 7 × List (ZMod 7))
  | [] => none
  | c :: rest => some (c, rest)

/-- Witness for C7: the concrete `Z/7` codecs at the element `(1, 2, 3)`. -/
theorem c7_roundtrip_witness :
    readBytes zmod7ReadByte (writeBytes zmod7WriteByte (⟨1, 2, 3⟩ : CubicExtField (ZMod 7)))
      = some (⟨1, 2, 3⟩, [])
    ∧ read_bits 3 zmod7ReadBits (write_bits zmod7WriteBits (⟨1, 2, 3⟩ : CubicExtField (ZMod 7)))
      = BitReadResult.ok ⟨1, 2, 3⟩ :=
  ⟨c7_roundtrip.1 (ZMod 7) (ZMod 7) zmod7WriteByte zmod7ReadByte
      (fun x s => rfl) ⟨1, 2, 3⟩,
    c7_roundtrip.2 (ZMod 7) 3 zmod7WriteBits zmod7ReadBits
      (by decide) (by decide) ⟨1, 2, 3⟩⟩

/-- C6 (divergence witness): on a truncated input — here the empty bit vector,
whose length differs from `3 * size = 9` for the `Z/7` instance — `read_bits`
aborts through the out-of-range positional slice `bits[..size]`
(`BitReadResult.panic`) before any decode, instead of signalling a decode
failure through the error result. -/
theorem c6_truncated_bits_panic :
    read_bits 3 zmod7ReadBits ([] : List Bool) = BitReadResult.panic
    ∧ read_bits 3 zmod7ReadBits [true, false] = BitReadResult.panic := by
  refine ⟨by decide, by decide⟩

end CubicExtField
